import Mathlib

/-!
Verification of the request-processing core of the embedthis HTTP library
(files `host.c` — which also carries `rx.c` —, `endpoint.c` and `basic.c`).

The development shallowly embeds the C functions the claims are about:

* `parseRequestLine` / `parseHeaders` (rx.c): the keep-alive bookkeeping,
  the header-key character check, the `Content-Length` / `Transfer-Encoding`
  interaction, and the `Range` header parser `parseRange`;
* `analyseContent` (rx.c): the identity-framed body byte counters;
* `httpLookupHostOnEndpoint` (endpoint.c): virtual-host matching;
* `httpAddRoute` (host.c): route insertion and the `nextGroup` updates;
* `httpBasicParse` / `httpBasicSetHeaders` (basic.c): Basic-auth round trip.

C strings are embedded as `String` or `List Char`, byte strings as
`List Nat` (each element < 256), C `int` as unbounded `Int` (overflow is
outside the scope of every claim treated here), and the mutable
`HttpConn`/`HttpRx` fields that a claim mentions as explicit record state.
Error paths are represented by an `Option Nat` status code where a claim
needs them.  Functions from the vendored MPR runtime (which is part of the
distribution but not under the extracted sources) are modelled from their
documented behaviour; the ones whose behaviour the spec itself fixes are
marked `Modelled from the spec:` in their doc comment.
-/

/-! ### Small character helpers -/

/-- C `isspace` on the ASCII range (space, tab, newline, vertical tab,
form feed, carriage return). -/
def isSpaceC (c : Char) : Bool :=
  c = ' ' || c = '\t' || c = '\n' || c = '\r' || c.toNat = 11 || c.toNat = 12

/-- C `isdigit`: the ASCII codes 48–57. -/
def isDigitC (c : Char) : Bool :=
  48 ≤ c.toNat && c.toNat ≤ 57

/-- Numeric value of a digit string (no sign handling). -/
def digitsVal (l : List Char) : Nat :=
  l.foldl (fun a c => a * 10 + (c.toNat - 48)) 0

/-- `mprAtoi(s, 10)` on the inputs that occur in the claims: an optional
leading minus sign followed by decimal digits; parsing stops at the first
non-digit. -/
def atoiC (l : List Char) : Int :=
  match l with
  | [] => 0
  | c :: rest =>
    if c = '-' then - (digitsVal (rest.takeWhile isDigitC) : Int)
    else (digitsVal ((c :: rest).takeWhile isDigitC) : Int)

/-- Case-insensitive comparison of two character lists
(`mprStrcmpAnyCase(a, b) == 0`). -/
def caselessEqL (a b : List Char) : Bool :=
  a.map Char.toLower == b.map Char.toLower

/-! ### C3 — header-key character check (rx.c `parseHeaders`)

`parseHeaders` runs `strspn(key, "%<>/\\") > 0` on every (lowercased)
header key and emits `400 Bad Request` when the test fires. -/

/-- The character set of the `strspn` call in `parseHeaders`. -/
def specialsC3 : List Char := ['%', '<', '>', '/', '\\']

/-- `strspn(key, "%<>/\\")`: length of the longest prefix of `key`
made only of characters from `specialsC3`. -/
def strspnSpecials (key : List Char) : Nat :=
  (key.takeWhile (fun c => specialsC3.contains c)).length

/-- The `parseHeaders` rejection test: the request is answered with
`400 Bad Request` exactly when this is `true` (host.c line 835). -/
def headerKeyRejected (key : List Char) : Bool :=
  strspnSpecials key > 0

/-- The property the claim talks about: the key contains one of the
special characters anywhere. -/
def keyHasSpecial (key : List Char) : Bool :=
  key.any (fun c => specialsC3.contains c)

/-! ### C1 — keep-alive bookkeeping (rx.c `parseRequestLine`/`parseHeaders`)

Only the fields that the keep-alive logic reads or writes are modelled:
`conn->keepAliveCount` and `conn->protocol` (a `char *` that is `NULL`
until `parseRequestLine` stores `"HTTP/1.0"` into it; the HTTP/1.1 branch
leaves it untouched).  `parseHeaders` additionally keeps the local
`keepAlive` counter, modelled as a `Bool` accumulator. -/

structure ConnKA where
  keepAliveCount : Int
  protocol : Option String
  deriving Repr, DecidableEq

/-- Effect of `parseRequestLine` (host.c lines 726–737) on the modelled
fields, given the protocol token of the request line.  `HTTP/1.0` zeroes
`keepAliveCount` and records the protocol; `HTTP/1.1` changes nothing
(the unsupported-protocol error path touches neither field). -/
def parseRequestLineKA (c : ConnKA) (protocol : String) : ConnKA :=
  if protocol = "HTTP/1.0" then
    { c with keepAliveCount := 0, protocol := some "HTTP/1.0" }
  else c

/-- The `Keep-Alive: timeout=N, max=1` suffix test of `parseHeaders`
(host.c lines 1004–1012): value longer than 2 whose last characters are
`x=1` up to the case of the `x`. -/
def kaMaxOne (v : List Char) : Bool :=
  match v.reverse with
  | '1' :: '=' :: x :: _ => x.toLower = 'x'
  | _ => false

/-- One header line of `parseHeaders`, restricted to the keys that touch
the keep-alive state: `connection` (host.c lines 931–938) and
`keep-alive` (lines 999–1013).  The key is lowercased by `mprStrLower`
before the comparisons and the value has leading white space stripped. -/
def kaStep (acc : ConnKA × Bool) (kv : List Char × List Char) : ConnKA × Bool :=
  if kv.1.map Char.toLower = "connection".toList then
    if caselessEqL (kv.2.dropWhile isSpaceC) ("KEEP-ALIVE".toList) then (acc.1, true)
    else if caselessEqL (kv.2.dropWhile isSpaceC) ("CLOSE".toList) then
      ({ acc.1 with keepAliveCount := -1 }, acc.2)
    else acc
  else if kv.1.map Char.toLower = "keep-alive".toList then
    if kaMaxOne (kv.2.dropWhile isSpaceC) then
      ({ acc.1 with keepAliveCount := 0 }, acc.2)
    else acc
  else acc

/-- `parseHeaders` restricted to the keep-alive state: fold `kaStep` over
the header lines with the local `keepAlive` counter starting at zero, then
apply the final reset `if (conn->protocol == 0 && !keepAlive)
conn->keepAliveCount = 0;` (host.c lines 1090–1092). -/
def parseHeadersKA (c : ConnKA) (hs : List (List Char × List Char)) : ConnKA :=
  if (hs.foldl kaStep (c, false)).1.protocol = none ∧ (hs.foldl kaStep (c, false)).2 = false then
    { (hs.foldl kaStep (c, false)).1 with keepAliveCount := 0 }
  else (hs.foldl kaStep (c, false)).1

/-! ### C2 / C8 — `Range` header parsing and validation (rx.c `parseRange`)

`parseRange` strips `bytes=` with `mprStrTok(value, "=", &value)`, then
tokenizes the remainder on `,` and builds one zero-initialised `HttpRange`
per token; afterwards it walks the built list and validates it. -/

structure HttpRange where
  start : Int
  end_ : Int
  len : Int
  deriving Repr, DecidableEq

/-- One comma token of `parseRange` (host.c lines 1894–1919).  A leading
`-` makes `start = -1`, otherwise `start = mprAtoi(tok)`; `end` defaults
to `-1` and becomes `mprAtoi(ep) + 1` when a `-` with a non-empty suffix
is found; `len` (zero from `mprAllocObjZeroed`) becomes `end - start`
when both bounds are non-negative. -/
def parseRangePiece (tok : List Char) : HttpRange :=
  let start : Int :=
    match tok with
    | [] => atoiC []
    | c :: rest => if c = '-' then -1 else atoiC (c :: rest)
  let ep := tok.dropWhile (fun c => c ≠ '-')
  let end_ : Int :=
    match ep with
    | _ :: rest => if rest ≠ [] then atoiC rest + 1 else -1
    | [] => -1
  let len : Int := if 0 ≤ start ∧ 0 ≤ end_ then end_ - start else 0
  { start := start, end_ := end_, len := len }

/-- `mprStrTok(s, delims, &last)`: skip a leading delimiter run, return
`none` when nothing is left, else the token up to the next delimiter and,
when a delimiter was found, the remainder after that delimiter run
(`none` models the `NULL` that `mprStrTok` stores when the token ran to
the end of the string). -/
def mprStrTok (delims : List Char) (s : List Char) :
    Option (List Char × Option (List Char)) :=
  let start := s.dropWhile (fun c => delims.contains c)
  if start = [] then none
  else
    let tokn := start.takeWhile (fun c => ¬ delims.contains c)
    let rest := start.dropWhile (fun c => ¬ delims.contains c)
    match rest with
    | [] => some (tokn, none)
    | _ => some (tokn, some (rest.dropWhile (fun c => delims.contains c)))

/-- Fuelled `mprStrTok` enumeration loop (`for (...; value && *value; )`
with `tok = mprStrTok(value, ",", &value)`). -/
def strTokLoop (delims : List Char) : Nat → Option (List Char) → List (List Char)
  | 0, _ => []
  | _, none => []
  | fuel + 1, some s =>
    match mprStrTok delims s with
    | none => []
    | some (tokn, rest) => tokn :: strTokLoop delims fuel rest

/-- The token-building phase of `parseRange` (host.c lines 1888–1926):
strip through the first `=`, then map `parseRangePiece` over the comma
tokens of the remainder. -/
def parseRanges (value : List Char) : List HttpRange :=
  match mprStrTok ['='] value with
  | none => []
  | some (_, rest) =>
    (strTokLoop [','] (value.length + 1) rest).map parseRangePiece

/-- The validation loop of `parseRange` (host.c lines 1931–1948), walking
the built range list and returning `false` on the first violated check. -/
def validateRanges : List HttpRange → Bool
  | [] => true
  | r :: rest =>
    if r.end_ ≠ -1 ∧ r.end_ ≤ r.start then false
    else if r.start < 0 ∧ r.end_ < 0 then false
    else if r.start < 0 ∧ rest ≠ [] then false
    else
      match rest with
      | [] => true
      | nxt :: _ =>
        if 0 ≤ nxt.start ∧ nxt.start < r.end_ then false
        else validateRanges rest

/-- Whole `parseRange`: the parsed list together with the boolean result
(`(last) ? 1 : 0` after validation); `parseHeaders` (host.c lines
1029–1032) answers `416 Range Not Satisfiable` exactly when the boolean
is `false`. -/
def parseRange (value : List Char) : List HttpRange × Bool :=
  let rl := parseRanges value
  (rl, validateRanges rl && rl ≠ [])

/-- All consecutive pairs of a list satisfy `f`. -/
def consPairsAll (f : HttpRange → HttpRange → Bool) : List HttpRange → Bool
  | a :: b :: rest => f a b && consPairsAll f (b :: rest)
  | _ => true

/-- The acceptance condition exactly as the claim states it: `end` (when
set) strictly greater than `start`; not both bounds negative; a range
with `start < 0` only as the final element; and every successive pair
with `range.end ≤ next.start`. -/
def claimAcceptC8 (rl : List HttpRange) : Bool :=
  rl.all (fun r => r.end_ == -1 || decide (r.start < r.end_)) &&
  rl.all (fun r => !(decide (r.start < 0) && decide (r.end_ < 0))) &&
  consPairsAll (fun r _ => decide (0 ≤ r.start)) rl &&
  consPairsAll (fun r nxt => decide (r.end_ ≤ nxt.start)) rl

/-- The corrected acceptance condition: the overlap rule is only enforced
against successors whose `start` is non-negative. -/
def amendedAcceptC8 (rl : List HttpRange) : Bool :=
  rl.all (fun r => r.end_ == -1 || decide (r.start < r.end_)) &&
  rl.all (fun r => !(decide (r.start < 0) && decide (r.end_ < 0))) &&
  consPairsAll (fun r _ => decide (0 ≤ r.start)) rl &&
  consPairsAll (fun r nxt => decide (nxt.start < 0) || decide (r.end_ ≤ nxt.start)) rl

/-! ### C4 — `Content-Length` vs `Transfer-Encoding: chunked`
(rx.c `parseHeaders`, server side)

The fold below embeds the `content-length` branch (host.c lines 864–884)
and the `transfer-encoding` branch (lines 1038–1051) of the header loop.
The loop stops processing once `conn->error` is set (`for (...;
content->start[0] != '\r' && !conn->error; ...)`), modelled by making the
step a no-op once an error code is recorded. -/

/-- `MAXINT` of the MPR headers: the largest 32-bit `int`. -/
def MAXINT : Int := 2147483647

structure RxHdr where
  length : Int
  remainingContent : Int
  chunked : Bool
  errorCode : Option Nat
  deriving Repr, DecidableEq

/-- The `HttpRx` as `parseHeaders` starts on it (`httpCreateRx`:
`rx->length = -1`, `rx->remainingContent = 0`, flags clear). -/
def rxHdrInit : RxHdr :=
  { length := -1, remainingContent := 0, chunked := false, errorCode := none }

/-- One header line of `parseHeaders` restricted to the `content-length`
and `transfer-encoding` branches, on a server connection with receive
body limit `recvLimit`.  Keys arrive lowercased (`mprStrLower`), values
with leading white space stripped. -/
def clteStep (recvLimit : Int) (s : RxHdr) (kv : String × List Char) : RxHdr :=
  if s.errorCode.isSome then s
  else
    let value := kv.2.dropWhile isSpaceC
    if kv.1 = "content-length" then
      if 0 ≤ s.length then { s with errorCode := some 400 }
      else
        let n := atoiC value
        if n < 0 then { s with length := n, errorCode := some 400 }
        else if recvLimit ≤ n then { s with length := n, errorCode := some 413 }
        else { s with length := n, remainingContent := n }
    else if kv.1 = "transfer-encoding" then
      if value.map Char.toLower = "chunked".toList then
        { s with chunked := true, remainingContent := MAXINT }
      else s
    else s

/-- The header loop of `parseHeaders` restricted to the framing state. -/
def parseHeadersCLTE (recvLimit : Int) (hs : List (String × List Char)) : RxHdr :=
  hs.foldl (clteStep recvLimit) rxHdrInit

/-! ### C9 — identity body byte counters (rx.c `analyseContent`)

For a non-chunked request `analyseContent` computes
`nbytes = min(rx->remainingContent, mprGetBufLength(content))` and, when
positive, moves `nbytes` from `remainingContent` to `receivedContent`
(host.c lines 1306–1326); no other code touches the two counters while
the connection is in the CONTENT state. -/

structure RxContent where
  remainingContent : Int
  receivedContent : Int
  deriving Repr, DecidableEq

/-- One `analyseContent` call on an identity-framed request, given the
number of bytes available in the packet buffer. -/
def analyseContentStep (s : RxContent) (bufLen : Nat) : RxContent :=
  let nbytes := min s.remainingContent (bufLen : Int)
  if 0 < nbytes then
    { remainingContent := s.remainingContent - nbytes,
      receivedContent := s.receivedContent + nbytes }
  else s

/-- The counters after any sequence of `analyseContent` calls, starting
from the state `parseHeaders` leaves for a declared `Content-Length` of
`n` (`remainingContent = n`, `receivedContent = 0`). -/
def contentRun (n : Int) (bufs : List Nat) : RxContent :=
  bufs.foldl analyseContentStep { remainingContent := n, receivedContent := 0 }

/-! ### C5 — virtual-host lookup (endpoint.c `httpLookupHostOnEndpoint`)

The loop structure is taken from the source.  The string helpers `smatch`
and `scontains` come from the vendored MPR runtime, which is not among
the extracted sources. -/

structure HttpHost where
  name : String
  deriving Repr, DecidableEq

/-- Modelled from the spec: the host-name equality used by `smatch` in
`httpLookupHostOnEndpoint` — the MPR string library is not among the
extracted sources and §4.3 of the spec fixes host matching rule 2 as
"Exact case-insensitive match". -/
def smatchHostName (a b : String) : Bool :=
  a.toList.map Char.toLower == b.toList.map Char.toLower

/-- `strstr`-style scan: does `pat` occur as a contiguous sublist? -/
def scontainsL (pat : List Char) : List Char → Bool
  | [] => pat.isPrefixOf ([] : List Char)
  | c :: rest => pat.isPrefixOf (c :: rest) || scontainsL pat rest

/-- Modelled from the spec: `scontains(str, pattern)` — substring
containment, the reading the spec fixes with "`"*.suffix"` matches any
name containing `.suffix`". -/
def scontains (str pat : String) : Bool :=
  scontainsL pat.toList str.toList

/-- The per-host loop body of `httpLookupHostOnEndpoint` (endpoint.c
lines 418–430): exact name match, then the `*` wildcard cases
(`*host->name == '*'`, `host->name[1] == '\0'`, and the scan for
`&host->name[1]`). -/
def lookupHostLoop (name : String) : List HttpHost → Option HttpHost
  | [] => none
  | h :: rest =>
    if smatchHostName h.name name then some h
    else if h.name.toList.head? = some '*' then
      if h.name.toList.tail = [] then some h
      else if scontains name (String.mk h.name.toList.tail) then some h
      else lookupHostLoop name rest
    else lookupHostLoop name rest

/-- `httpLookupHostOnEndpoint(endpoint, name)` (endpoint.c lines
410–432): an empty (or absent, modelled as empty) name returns the first
host, otherwise the loop above runs over the endpoint's hosts in order. -/
def httpLookupHostOnEndpoint (hosts : List HttpHost) (name : String) : Option HttpHost :=
  if name = "" then hosts.head?
  else lookupHostLoop name hosts

/-- The matching rule exactly as the claim states it, as a predicate on
one host: exact case-insensitive equality, or the name is `*`, or the
name is `*` followed by a non-empty suffix that the given name
contains. -/
def hostMatchesClaim (name : String) (h : HttpHost) : Bool :=
  smatchHostName h.name name ||
  h.name == "*" ||
  (h.name.toList.head? == some '*' && h.name.toList.tail ≠ [] &&
    scontains name (String.mk h.name.toList.tail))

/-! ### C7 — Basic authorization round trip (basic.c)

`httpBasicSetHeaders` emits `Authorization: basic <mprEncode64(u ++ ":"
++ p)>`; `httpBasicParse` runs `mprDecode64` on the credential part and
splits the decoded bytes at the first `:` (byte 58).  Byte strings are
`List Nat` with every element below 256. -/

/-- Modelled from the spec: the standard base64 alphabet used by
`mprEncode64`/`mprDecode64` (vendored MPR code, not among the extracted
sources; §4.2 of the spec only says "base64").  Maps a six-bit value to
its ASCII code. -/
def b64alph (n : Nat) : Nat :=
  if n < 26 then 65 + n
  else if n < 52 then 97 + (n - 26)
  else if n < 62 then 48 + (n - 52)
  else if n = 62 then 43
  else 47

/-- Modelled from the spec: the inverse base64 alphabet of
`mprDecode64`. -/
def b64dealph (c : Nat) : Nat :=
  if 65 ≤ c ∧ c ≤ 90 then c - 65
  else if 97 ≤ c ∧ c ≤ 122 then (c - 97) + 26
  else if 48 ≤ c ∧ c ≤ 57 then (c - 48) + 52
  else if c = 43 then 62
  else 63

/-- Modelled from the spec: `mprEncode64` — standard base64 with `=`
(ASCII 61) padding, three input bytes per four output characters. -/
def encode64 : List Nat → List Nat
  | [] => []
  | [a] => [b64alph (a / 4), b64alph (a % 4 * 16), 61, 61]
  | [a, b] => [b64alph (a / 4), b64alph (a % 4 * 16 + b / 16), b64alph (b % 16 * 4), 61]
  | a :: b :: c :: rest =>
    b64alph (a / 4) :: b64alph (a % 4 * 16 + b / 16) ::
    b64alph (b % 16 * 4 + c / 64) :: b64alph (c % 64) :: encode64 rest

/-- Modelled from the spec: `mprDecode64` — four characters per three
output bytes, stopping at `=` padding. -/
def decode64 : List Nat → List Nat
  | c1 :: c2 :: c3 :: c4 :: rest =>
    if c3 = 61 then [b64dealph c1 * 4 + b64dealph c2 / 16]
    else if c4 = 61 then
      [b64dealph c1 * 4 + b64dealph c2 / 16,
       b64dealph c2 % 16 * 16 + b64dealph c3 / 4]
    else
      (b64dealph c1 * 4 + b64dealph c2 / 16) ::
      (b64dealph c2 % 16 * 16 + b64dealph c3 / 4) ::
      (b64dealph c3 % 4 * 64 + b64dealph c4) :: decode64 rest
  | _ => []

/-- The split of `httpBasicParse` (basic.c lines 30–42): `strchr` for the
first `:` (byte 58); when found, the username is everything before it and
the password everything after it, otherwise the username is the whole
string and the password is empty (`sclone(NULL)`). -/
def httpBasicSplit : List Nat → List Nat × List Nat
  | [] => ([], [])
  | b :: rest =>
    if b = 58 then ([], rest)
    else
      let p := httpBasicSplit rest
      (b :: p.1, p.2)

/-- The credential string built by `httpBasicSetHeaders` (basic.c line
66): `mprEncode64(sfmt("%s:%s", username, password))`. -/
def httpBasicSetHeadersCreds (u p : List Nat) : List Nat :=
  encode64 (u ++ 58 :: p)

/-- `httpBasicParse` on the credential part of the `Authorization`
header: decode, then split at the first `:`. -/
def httpBasicParseCreds (creds : List Nat) : List Nat × List Nat :=
  httpBasicSplit (decode64 creds)

/-! ### C6 / C10 — route insertion (host.c `httpAddRoute`)

Routes are records; the `rid` field models pointer identity (the C code
compares list members against the inserted route by pointer in
`mprLookupItem`).  The copy-on-write branch for cloned virtual hosts
copies the parent's list without changing its contents and is outside
both claims, so the model works on the host's own route list.  `smatch`
on `startSegment` is exact string equality here (segments are produced
by the route compiler from the literal pattern text). -/

structure HttpRoute where
  rid : Nat
  pattern : String
  startSegment : String
  nextGroup : Nat
  host : Nat
  deriving Repr, DecidableEq

/-- `mprLookupItem(host->routes, route) >= 0`: pointer membership. -/
def routeInList (rs : List HttpRoute) (r : HttpRoute) : Bool :=
  rs.any (fun x => x.rid == r.rid)

/-- The index at which `httpAddRoute` places the new route (host.c lines
266–271): before a terminal empty-pattern route when the new pattern is
non-empty (`mprInsertItemAtPos(..., len - 1, route)`), else appended
(`mprAddItem`); both MPR calls return this index. -/
def insertIdx (rs : List HttpRoute) (r : HttpRoute) : Nat :=
  match rs.getLast? with
  | some lastRoute =>
    if r.pattern ≠ "" ∧ lastRoute.pattern = "" then rs.length - 1 else rs.length
  | none => 0

/-- `startSegment` of the route at index `i` (empty for an out-of-range
index; every use below stays in range). -/
def segAt (rs : List HttpRoute) (i : Nat) : String :=
  match rs[i]? with
  | some x => x.startSegment
  | none => ""

/-- The backward walk of `httpAddRoute` (host.c lines 276–283): starting
at index `i` and moving down, set `nextGroup := tgt` on every route whose
`startSegment` equals `seg`, stopping at the first mismatch. -/
def groupWalk (seg : String) (tgt : Nat) : Nat → List HttpRoute → List HttpRoute
  | 0, rs =>
    match rs[0]? with
    | some item =>
      if item.startSegment == seg then rs.set 0 { item with nextGroup := tgt } else rs
    | none => rs
  | i + 1, rs =>
    match rs[i + 1]? with
    | some item =>
      if item.startSegment == seg then
        groupWalk seg tgt i (rs.set (i + 1) { item with nextGroup := tgt })
      else rs
    | none => rs

/-- The `nextGroup` update block of `httpAddRoute` (host.c lines
272–284): when the inserted route has a positive index and the preceding
route's `startSegment` differs, point the predecessor's `nextGroup` at
the new route and walk backward over the predecessor's group. -/
def updateGroups (rs1 : List HttpRoute) (r : HttpRoute) (thisRoute : Nat) :
    List HttpRoute :=
  if thisRoute > 0 then
    match rs1[thisRoute - 1]? with
    | some prev =>
      if prev.startSegment ≠ r.startSegment then
        if 2 ≤ thisRoute then
          groupWalk prev.startSegment thisRoute (thisRoute - 2)
            (rs1.set (thisRoute - 1) { prev with nextGroup := thisRoute })
        else rs1.set (thisRoute - 1) { prev with nextGroup := thisRoute }
      else rs1
    | none => rs1
  else rs1

/-- The effect of `httpAddRoute` on the host's route list (host.c lines
265–286): nothing when the route is already a member, otherwise insert at
`insertIdx` and run the `nextGroup` updates. -/
def httpAddRouteList (rs : List HttpRoute) (r : HttpRoute) : List HttpRoute :=
  if routeInList rs r then rs
  else
    let pos := insertIdx rs r
    updateGroups (rs.take pos ++ r :: rs.drop pos) r pos

/-- `httpSetRouteHost(route, host)` as seen through the list: the route
object is shared between caller and list, so the member with the route's
identity gets its `host` field set. -/
def httpSetRouteHost (rs : List HttpRoute) (rid h : Nat) : List HttpRoute :=
  rs.map (fun x => if x.rid == rid then { x with host := h } else x)

/-- Whole `httpAddRoute` (host.c lines 255–289): update the list, set the
route's host, return 0. -/
def httpAddRoute (rs : List HttpRoute) (r : HttpRoute) (h : Nat) :
    List HttpRoute × Int :=
  (httpSetRouteHost (httpAddRouteList rs r) r.rid h, 0)

/-- Number of leading routes of a list sharing `startSegment = seg`. -/
def firstDiffCount (seg : String) : List HttpRoute → Nat
  | [] => 0
  | x :: rest => if x.startSegment == seg then firstDiffCount seg rest + 1 else 0

/-- The claim's `nextGroup` invariant: every entry's `nextGroup` is the
first index after it whose `startSegment` differs, or the list length
when no such index exists. -/
def nextGroupOk (rs : List HttpRoute) : Bool :=
  (List.range rs.length).all fun i =>
    match rs[i]? with
    | some x => x.nextGroup == i + 1 + firstDiffCount x.startSegment (rs.drop (i + 1))
    | none => true

/-- The claim's structural invariant on a route list: any empty-pattern
route sits only at the last position, and `nextGroup` is everywhere as
`nextGroupOk` demands. -/
def claimInvariantC6 (rs : List HttpRoute) : Bool :=
  ((List.range rs.length).all fun i =>
    match rs[i]? with
    | some x => x.pattern ≠ "" || i + 1 == rs.length
    | none => true) &&
  nextGroupOk rs

/-- All routes at indices `i ≤ k < pos` of `rs` have `startSegment =
seg` (the contiguous-group condition of the backward walk). -/
def groupFromB (rs : List HttpRoute) (i pos : Nat) (seg : String) : Bool :=
  (List.range (pos - i)).all fun k => segAt rs (i + k) == seg

/-! ## Helper lemmas -/

theorem char_ne_of_toNat_lt {c : Char} (h1 : 48 ≤ c.toNat) (d : Char)
    (hd : d.toNat < 48) : c ≠ d := by
  intro he
  subst he
  omega

theorem isDigitC_toNat {c : Char} (h : isDigitC c = true) :
    48 ≤ c.toNat ∧ c.toNat ≤ 57 := by
  simpa [isDigitC] using h

theorem isDigitC_not_space {c : Char} (h : isDigitC c = true) :
    isSpaceC c = false := by
  obtain ⟨h1, h2⟩ := isDigitC_toNat h
  have hsp := char_ne_of_toNat_lt h1 ' ' (by decide)
  have hta := char_ne_of_toNat_lt h1 '\t' (by decide)
  have hnl := char_ne_of_toNat_lt h1 '\n' (by decide)
  have hcr := char_ne_of_toNat_lt h1 '\r' (by decide)
  simp [isSpaceC, hsp, hta, hnl, hcr]
  omega

theorem isDigitC_ne_dash {c : Char} (h : isDigitC c = true) : c ≠ '-' :=
  char_ne_of_toNat_lt (isDigitC_toNat h).1 '-' (by decide)

theorem takeWhile_append_all {p : Char → Bool} (ds l : List Char)
    (h : ∀ c ∈ ds, p c = true) (hl : l.takeWhile p = []) :
    (ds ++ l).takeWhile p = ds := by
  induction ds with
  | nil => simpa using hl
  | cons c rest ih =>
    simp only [List.cons_append, List.takeWhile_cons, h c (by simp)]
    rw [ih (fun x hx => h x (by simp [hx]))]
    simp

theorem dropWhile_append_all {p : Char → Bool} (ds l : List Char)
    (h : ∀ c ∈ ds, p c = true) :
    (ds ++ l).dropWhile p = l.dropWhile p := by
  induction ds with
  | nil => simp
  | cons c rest ih =>
    simp only [List.cons_append, List.dropWhile_cons, h c (by simp)]
    exact ih (fun x hx => h x (by simp [hx]))

theorem dropWhile_all_nil {p : Char → Bool} (ds : List Char)
    (h : ∀ c ∈ ds, p c = true) : ds.dropWhile p = [] := by
  have := dropWhile_append_all ds [] h
  simpa using this

theorem takeWhile_all_self {p : Char → Bool} (ds : List Char)
    (h : ∀ c ∈ ds, p c = true) : ds.takeWhile p = ds := by
  have := takeWhile_append_all ds [] h (by simp)
  simpa using this

/-- `atoiC` of a pure digit string is its numeric value. -/
theorem atoiC_digits (ds : List Char) (h : ∀ c ∈ ds, isDigitC c = true) :
    atoiC ds = (digitsVal ds : Int) := by
  cases ds with
  | nil => simp [atoiC, digitsVal]
  | cons c rest =>
    have hdash : c ≠ '-' := isDigitC_ne_dash (h c (by simp))
    simp only [atoiC, if_neg hdash]
    rw [takeWhile_all_self _ h]

/-! ## Claim theorems -/

/-! ### C3 -/

/-- Claim C3 counterexample: the header key `a%` contains `%`, yet
`strspn(key, "%<>/\\") > 0` is false for it, so `parseHeaders` does not
reject the request — the claimed "anywhere in the key" fails at this
input. -/
theorem c3_counterexample :
    keyHasSpecial ['a', '%'] = true ∧ headerKeyRejected ['a', '%'] = false := by
  decide

/-- Claim C3 (amended): a header line is rejected with `400 Bad Request`
exactly when the first character of its key is one of `% < > / \`
(`strspn` measures a prefix, so only a key beginning with a special
character trips the check). -/
theorem c3_amended (key : List Char) :
    headerKeyRejected key =
      (match key with
       | c :: _ => specialsC3.contains c
       | [] => false) := by
  cases key with
  | nil => rfl
  | cons c rest =>
    simp only [headerKeyRejected, strspnSpecials, List.takeWhile_cons]
    cases h : specialsC3.contains c <;> simp [h]

/-! ### C9 -/

/-- Claim C9 (confirmed): starting from the state `parseHeaders` leaves
for a declared `Content-Length` of `n` on an identity-framed request
(`remainingContent = n`, `receivedContent = 0`), every sequence of
`analyseContent` steps — one per suspension while the connection sits in
the CONTENT state — keeps `remainingContent + receivedContent = n`. -/
theorem c9_content_invariant (n : Int) (bufs : List Nat) :
    (contentRun n bufs).remainingContent + (contentRun n bufs).receivedContent = n := by
  suffices h : ∀ (bufs : List Nat) (s : RxContent),
      (bufs.foldl analyseContentStep s).remainingContent +
        (bufs.foldl analyseContentStep s).receivedContent =
        s.remainingContent + s.receivedContent by
    simpa [contentRun] using h bufs { remainingContent := n, receivedContent := 0 }
  intro bufs
  induction bufs with
  | nil => intro s; rfl
  | cons b rest ih =>
    intro s
    simp only [List.foldl_cons]
    rw [ih]
    simp only [analyseContentStep]
    split
    · simp only
      ring
    · rfl

/-! ### C1 -/

/-- Claim C1 counterexample: an `HTTP/1.0` request that does carry
`Connection: keep-alive` still ends with `keepAliveCount = 0` — the
request line zeroes the counter unconditionally (host.c line 728) and the
header only sets the local `keepAlive` flag, which is consulted solely by
the `conn->protocol == 0` reset that never applies to HTTP/1.0.  Starting
from a connection with `keepAliveCount = 100`, parsing forces it to 0, so
keep-alive is not retained as claimed. -/
theorem c1_counterexample :
    (parseHeadersKA
        (parseRequestLineKA { keepAliveCount := 100, protocol := none } "HTTP/1.0")
        [("connection".toList, "keep-alive".toList)]).keepAliveCount = 0 := by
  decide

/-- Claim C1 (amended): for every server request whose request line
declares `HTTP/1.0`, `keepAliveCount` is zeroed at the request line and
stays 0 through header parsing whether or not a `Connection: keep-alive`
header is present, provided no `Connection: close` header appears (which
would set it to -1); a `Connection: keep-alive` header does not restore
keep-alive. -/
theorem c1_amended (c0 : ConnKA) (hs : List (List Char × List Char))
    (hclose : ∀ kv ∈ hs, ¬(kv.1.map Char.toLower = "connection".toList ∧
        caselessEqL (kv.2.dropWhile isSpaceC) ("CLOSE".toList) = true)) :
    (parseHeadersKA (parseRequestLineKA c0 "HTTP/1.0") hs).keepAliveCount = 0 := by
  have key : ∀ (hs : List (List Char × List Char)) (acc : ConnKA × Bool),
      acc.1.keepAliveCount = 0 →
      acc.1.protocol = some "HTTP/1.0" →
      (∀ kv ∈ hs, ¬(kv.1.map Char.toLower = "connection".toList ∧
          caselessEqL (kv.2.dropWhile isSpaceC) ("CLOSE".toList) = true)) →
      (hs.foldl kaStep acc).1.keepAliveCount = 0 ∧
        (hs.foldl kaStep acc).1.protocol = some "HTTP/1.0" := by
    intro hs
    induction hs with
    | nil => intro acc h1 h2 _; exact ⟨h1, h2⟩
    | cons kv rest ih =>
      intro acc h1 h2 hcl
      simp only [List.foldl_cons]
      have hstep : (kaStep acc kv).1.keepAliveCount = 0 ∧
          (kaStep acc kv).1.protocol = some "HTTP/1.0" := by
        have hnotclose := hcl kv (by simp)
        unfold kaStep
        split
        · rename_i hconn
          split
          · exact ⟨h1, h2⟩
          · split
            · rename_i hcls
              exact absurd ⟨hconn, hcls⟩ hnotclose
            · exact ⟨h1, h2⟩
        · split
          · split
            · exact ⟨rfl, h2⟩
            · exact ⟨h1, h2⟩
          · exact ⟨h1, h2⟩
      exact ih (kaStep acc kv) hstep.1 hstep.2
        (fun x hx => hcl x (by simp [hx]))
  have hreq : (parseRequestLineKA c0 "HTTP/1.0").keepAliveCount = 0 ∧
      (parseRequestLineKA c0 "HTTP/1.0").protocol = some "HTTP/1.0" := by
    simp [parseRequestLineKA]
  obtain ⟨hk, hp⟩ := key hs (parseRequestLineKA c0 "HTTP/1.0", false) hreq.1 hreq.2 hclose
  unfold parseHeadersKA
  rw [if_neg]
  · exact hk
  · intro hcond
    rw [hp] at hcond
    exact Option.noConfusion hcond.1

/-- Witness for `c1_amended` at a concrete input: an `HTTP/1.0` request
with a `Connection: keep-alive` header (and one unrelated header) parses
to `keepAliveCount = 0`. -/
theorem c1_amended_witness :
    (parseHeadersKA
        (parseRequestLineKA { keepAliveCount := 42, protocol := none } "HTTP/1.0")
        [("Connection".toList, " keep-alive".toList),
         ("host".toList, "x".toList)]).keepAliveCount = 0 :=
  c1_amended { keepAliveCount := 42, protocol := none }
    [("Connection".toList, " keep-alive".toList), ("host".toList, "x".toList)]
    (by decide)

/-! ### C4 -/

/-- Claim C4 counterexample: when `Transfer-Encoding: chunked` precedes
`Content-Length: 5`, the `content-length` branch runs afterwards and
overwrites `rx->remainingContent` with the declared length (host.c line
882), so `remainingContent = 5 ≠ MAXINT` even though the CHUNKED flag is
set — chunked framing does not win in this header order. -/
theorem c4_counterexample :
    (parseHeadersCLTE 1000000
        [("transfer-encoding", "chunked".toList),
         ("content-length", "5".toList)]).chunked = true ∧
    (parseHeadersCLTE 1000000
        [("transfer-encoding", "chunked".toList),
         ("content-length", "5".toList)]).remainingContent = 5 ∧
    (5 : Int) ≠ MAXINT := by
  refine ⟨by decide, by decide, by decide⟩

/-- Claim C4 (amended): for a request carrying `Content-Length: n`
(with `0 ≤ n < limits.receiveBodySize`) and `Transfer-Encoding: chunked`,
the CHUNKED flag is set in either header order and neither order raises
an error, but `remainingContent = MAXINT` only when the
`Transfer-Encoding` header is processed after `Content-Length`; in the
opposite order `remainingContent` ends up as the declared length `n`. -/
theorem c4_amended (recvLimit : Int) (ds : List Char) (hne : ds ≠ [])
    (hdig : ∀ c ∈ ds, isDigitC c = true)
    (hlim : (digitsVal ds : Int) < recvLimit) :
    (parseHeadersCLTE recvLimit
        [("content-length", ds), ("transfer-encoding", "chunked".toList)]).chunked = true ∧
    (parseHeadersCLTE recvLimit
        [("content-length", ds), ("transfer-encoding", "chunked".toList)]).remainingContent = MAXINT ∧
    (parseHeadersCLTE recvLimit
        [("content-length", ds), ("transfer-encoding", "chunked".toList)]).errorCode = none ∧
    (parseHeadersCLTE recvLimit
        [("transfer-encoding", "chunked".toList), ("content-length", ds)]).chunked = true ∧
    (parseHeadersCLTE recvLimit
        [("transfer-encoding", "chunked".toList), ("content-length", ds)]).remainingContent = (digitsVal ds : Int) ∧
    (parseHeadersCLTE recvLimit
        [("transfer-encoding", "chunked".toList), ("content-length", ds)]).errorCode = none := by
  have hdrop : ds.dropWhile isSpaceC = ds := by
    cases ds with
    | nil => simp
    | cons c rest =>
      rw [List.dropWhile_cons, isDigitC_not_space (hdig c (by simp))]
      simp
  have hatoi : atoiC ds = (digitsVal ds : Int) := atoiC_digits ds hdig
  have hnonneg : (0 : Int) ≤ (digitsVal ds : Int) := Int.ofNat_nonneg _
  have hc1 : ¬((digitsVal ds : Int) < 0) := by omega
  have hc2 : ¬(recvLimit ≤ (digitsVal ds : Int)) := by omega
  have hchr : ("chunked".toList.dropWhile isSpaceC).map Char.toLower
      = "chunked".toList := by decide
  have hne1 : ("transfer-encoding" : String) ≠ "content-length" := by decide
  have hne2 : ("content-length" : String) ≠ "transfer-encoding" := by decide
  have hm1 : ¬((0 : Int) ≤ -1) := by decide
  simp only [parseHeadersCLTE, List.foldl_cons, List.foldl_nil]
  simp +decide [clteStep, rxHdrInit, hdrop, hatoi, hc1, hc2, hchr, hne1, hne2, hm1]

/-- Witness for `c4_amended` at `n = 5`, `receiveBodySize = 1000`. -/
theorem c4_amended_witness :
    (parseHeadersCLTE 1000
        [("content-length", "5".toList), ("transfer-encoding", "chunked".toList)]).chunked = true ∧
    (parseHeadersCLTE 1000
        [("content-length", "5".toList), ("transfer-encoding", "chunked".toList)]).remainingContent = MAXINT ∧
    (parseHeadersCLTE 1000
        [("content-length", "5".toList), ("transfer-encoding", "chunked".toList)]).errorCode = none ∧
    (parseHeadersCLTE 1000
        [("transfer-encoding", "chunked".toList), ("content-length", "5".toList)]).chunked = true ∧
    (parseHeadersCLTE 1000
        [("transfer-encoding", "chunked".toList), ("content-length", "5".toList)]).remainingContent = (digitsVal "5".toList : Int) ∧
    (parseHeadersCLTE 1000
        [("transfer-encoding", "chunked".toList), ("content-length", "5".toList)]).errorCode = none :=
  c4_amended 1000 ("5".toList) (by decide) (by decide) (by decide)

/-! ### C8 -/

/-- Claim C8 counterexample: the header `Range: bytes=0-100,-5` parses to
the list `[{start 0, end 101}, {start -1, end 6}]`, which the validation
loop of `parseRange` accepts (the overlap check is skipped because the
successor's `start` is negative), yet the claim's acceptance condition
demands `range.end ≤ next.start` for every successive pair, which fails
here (`101 ≤ -1` is false) — so "accepted iff the four rules hold" is
false at this input. -/
theorem c8_counterexample :
    parseRange ("bytes=0-100,-5".toList) =
      ([{ start := 0, end_ := 101, len := 101 },
        { start := -1, end_ := 6, len := 0 }], true) ∧
    claimAcceptC8 [{ start := 0, end_ := 101, len := 101 },
        { start := -1, end_ := 6, len := 0 }] = false := by
  refine ⟨by decide, by decide⟩

/-- Claim C8 (amended): the validation loop of `parseRange` accepts a
parsed range list iff every range has `end` (when set) strictly greater
than `start`, no range has both bounds negative, any range with
`start < 0` is the final element, and every successive pair whose
successor has a non-negative `start` satisfies `range.end ≤ next.start`;
`parseHeaders` answers `416 Range Not Satisfiable` exactly when
`parseRange` returns false. -/
theorem c8_amended (rl : List HttpRange) :
    validateRanges rl = amendedAcceptC8 rl := by
  induction rl with
  | nil => rfl
  | cons r rest ih =>
    cases rest with
    | nil =>
      simp only [validateRanges, amendedAcceptC8, consPairsAll, List.all_cons,
        List.all_nil]
      split
      · rename_i h
        simp only [Bool.and_true]
        rcases h with ⟨h1, h2⟩
        have : (r.end_ == -1 || decide (r.start < r.end_)) = false := by
          simp [h1]
          omega
        simp [this]
      · split
        · rename_i h
          rcases h with ⟨h1, h2⟩
          have : (!(decide (r.start < 0) && decide (r.end_ < 0))) = false := by
            simp
            omega
          simp [this]
        · rename_i hnot1 hnot2
          simp only [not_and_or] at hnot1 hnot2
          have h1 : (r.end_ == -1 || decide (r.start < r.end_)) = true := by
            rcases hnot1 with h | h
            · simp
              omega
            · simp
              omega
          have h2 : (!(decide (r.start < 0) && decide (r.end_ < 0))) = true := by
            rcases hnot2 with h | h
            · simp
              omega
            · simp
              omega
          simp [h1, h2]
    | cons nxt rest2 =>
      simp only [validateRanges, amendedAcceptC8, consPairsAll, List.all_cons] at ih ⊢
      by_cases hA : r.end_ ≠ -1 ∧ r.end_ ≤ r.start
      · rw [if_pos hA]
        have : (r.end_ == -1 || decide (r.start < r.end_)) = false := by
          simp [hA.1]
          omega
        simp [this]
      rw [if_neg hA]
      by_cases hB : r.start < 0 ∧ r.end_ < 0
      · rw [if_pos hB]
        have : (!(decide (r.start < 0) && decide (r.end_ < 0))) = false := by
          simp
          omega
        simp [this]
      rw [if_neg hB]
      by_cases hC : r.start < 0 ∧ nxt :: rest2 ≠ []
      · rw [if_pos hC]
        have : decide (0 ≤ r.start) = false := by
          simp
          omega
        simp [this]
      rw [if_neg hC]
      have hCr : ¬ r.start < 0 := by
        intro h
        exact hC ⟨h, by simp⟩
      by_cases hD : 0 ≤ nxt.start ∧ nxt.start < r.end_
      · rw [if_pos hD]
        have : (decide (nxt.start < 0) || decide (r.end_ ≤ nxt.start)) = false := by
          simp
          omega
        simp [this]
      · rw [if_neg hD]
        rw [ih]
        simp only [not_and_or] at hA hB hD
        have h1 : (r.end_ == -1 || decide (r.start < r.end_)) = true := by
          rcases hA with h | h
          · simp at h
            simp [h]
          · simp
            omega
        have h2 : (!(decide (r.start < 0) && decide (r.end_ < 0))) = true := by
          simp
          omega
        have h3 : decide (0 ≤ r.start) = true := by
          simp
          omega
        have h4 : (decide (nxt.start < 0) || decide (r.end_ ≤ nxt.start)) = true := by
          rcases hD with h | h
          · simp
            omega
          · simp
            omega
        rw [h1, h2, h3, h4]
        simp only [Bool.true_and]

/-! ### C2 -/

/-- Claim C2 counterexample: the piece `-7` of a `bytes=` Range header
parses to `start = -1, end = 8`, not `end = 7` as the claim's
`-N ⇒ end = N` rule demands (the code adds one: `range->end =
mprAtoi(ep) + 1`, and its own comment says "-7 will set the start to -1
and end to 8"). -/
theorem c2_counterexample :
    parseRanges ("bytes=-7".toList) = [{ start := -1, end_ := 8, len := 0 }] ∧
    ({ start := -1, end_ := 8, len := 0 } : HttpRange).end_ ≠ 7 := by
  refine ⟨by decide, by decide⟩

/-- Claim C2 (amended): each comma-delimited piece of a `bytes=` Range
header becomes one `HttpRange` with `-N ⇒ start = -1, end = N + 1`
(one beyond the requested last byte, matching `N-M`),
`N- ⇒ start = N, end = -1`, and `N-M ⇒ start = N, end = M + 1`, with
`len = end - start` when both bounds are non-negative and `len = 0`
otherwise. -/
theorem c2_amended (ds1 ds2 : List Char) (h1 : ds1 ≠ []) (h2 : ds2 ≠ [])
    (hd1 : ∀ c ∈ ds1, isDigitC c = true) (hd2 : ∀ c ∈ ds2, isDigitC c = true) :
    parseRangePiece ('-' :: ds2) =
      { start := -1, end_ := (digitsVal ds2 : Int) + 1, len := 0 } ∧
    parseRangePiece (ds1 ++ ['-']) =
      { start := (digitsVal ds1 : Int), end_ := -1, len := 0 } ∧
    parseRangePiece (ds1 ++ '-' :: ds2) =
      { start := (digitsVal ds1 : Int), end_ := (digitsVal ds2 : Int) + 1,
        len := (digitsVal ds2 : Int) + 1 - (digitsVal ds1 : Int) } := by
  have hnodash1 : ∀ c ∈ ds1, (decide ¬(c = '-')) = true := by
    intro c hc
    simp [isDigitC_ne_dash (hd1 c hc)]
  have hdashfail : (decide ¬(('-' : Char) = '-')) = false := by decide
  have hds2dig : ds2.takeWhile isDigitC = ds2 := takeWhile_all_self ds2 hd2
  have hatoi2 : atoiC ds2 = (digitsVal ds2 : Int) := atoiC_digits ds2 hd2
  refine ⟨?_, ?_, ?_⟩
  · -- the piece "-N"
    simp only [parseRangePiece, List.dropWhile_cons, hdashfail, Bool.false_eq_true,
      if_false, if_pos rfl, h2, ne_eq, not_false_iff, if_true, hatoi2]
    simp [h2]
    exact hatoi2
  · -- the piece "N-"
    obtain ⟨c, rest, rfl⟩ : ∃ c rest, ds1 = c :: rest := by
      cases ds1 with
      | nil => exact absurd rfl h1
      | cons c rest => exact ⟨c, rest, rfl⟩
    have hcdash : c ≠ '-' := isDigitC_ne_dash (hd1 c (by simp))
    have hdw : ((c :: rest) ++ ['-']).dropWhile (fun x => decide ¬(x = '-')) = ['-'] := by
      rw [dropWhile_append_all _ _ hnodash1]
      simp
    have hatoi1 : atoiC ((c :: rest) ++ ['-']) = (digitsVal (c :: rest) : Int) := by
      show atoiC (c :: (rest ++ ['-'])) = _
      simp only [atoiC, if_neg hcdash]
      rw [show c :: (rest ++ ['-']) = (c :: rest) ++ ['-'] from rfl]
      rw [takeWhile_append_all _ _ hd1 (by decide)]
    simp only [parseRangePiece]
    rw [List.cons_append]
    simp only [List.cons_append] at hdw
    rw [hdw]
    simp only [ne_eq, not_true_eq_false, if_false, if_neg hcdash]
    rw [← List.cons_append, hatoi1]
    simp
  · -- the piece "N-M"
    obtain ⟨c, rest, rfl⟩ : ∃ c rest, ds1 = c :: rest := by
      cases ds1 with
      | nil => exact absurd rfl h1
      | cons c rest => exact ⟨c, rest, rfl⟩
    have hcdash : c ≠ '-' := isDigitC_ne_dash (hd1 c (by simp))
    have hdw : ((c :: rest) ++ '-' :: ds2).dropWhile (fun x => decide ¬(x = '-'))
        = '-' :: ds2 := by
      rw [dropWhile_append_all _ _ hnodash1]
      simp
    have hatoi1 : atoiC ((c :: rest) ++ '-' :: ds2) = (digitsVal (c :: rest) : Int) := by
      show atoiC (c :: (rest ++ '-' :: ds2)) = _
      simp only [atoiC, if_neg hcdash]
      rw [show c :: (rest ++ '-' :: ds2) = (c :: rest) ++ '-' :: ds2 from rfl]
      rw [takeWhile_append_all _ _ hd1 (by simp [isDigitC])]
    simp only [parseRangePiece]
    rw [List.cons_append]
    simp only [List.cons_append] at hdw
    rw [hdw]
    simp only [ne_eq, not_true_eq_false, if_false, if_neg hcdash]
    rw [← List.cons_append, hatoi1, hatoi2]
    have hstartpos : (0 : Int) ≤ (digitsVal (c :: rest) : Int) := Int.ofNat_nonneg _
    have hendpos : (0 : Int) ≤ (digitsVal ds2 : Int) + 1 := by
      have := Int.ofNat_nonneg (digitsVal ds2)
      omega
    simp [h2, hstartpos, hendpos]

/-- Witness for `c2_amended` with `ds1 = "5"` and `ds2 = "7"`: the pieces
`-7`, `5-` and `5-7`. -/
theorem c2_amended_witness :
    parseRangePiece ('-' :: "7".toList) =
      { start := -1, end_ := (digitsVal "7".toList : Int) + 1, len := 0 } ∧
    parseRangePiece ("5".toList ++ ['-']) =
      { start := (digitsVal "5".toList : Int), end_ := -1, len := 0 } ∧
    parseRangePiece ("5".toList ++ '-' :: "7".toList) =
      { start := (digitsVal "5".toList : Int), end_ := (digitsVal "7".toList : Int) + 1,
        len := (digitsVal "7".toList : Int) + 1 - (digitsVal "5".toList : Int) } :=
  c2_amended ("5".toList) ("7".toList) (by decide) (by decide) (by decide) (by decide)

/-! ### C5 -/

theorem string_toList_inj {s t : String} (h : s.toList = t.toList) : s = t := by
  cases s
  cases t
  exact congrArg String.mk h

/-- Claim C5 (confirmed): `httpLookupHostOnEndpoint` returns the first
host when the name is empty (or absent), and otherwise the first host in
endpoint order satisfying the claim's matching rule — exact
case-insensitive equality, the `*` wildcard, or a `*suffix` wildcard
whose suffix the given name contains — and `none` when no host
matches. -/
theorem c5_lookupHost (hosts : List HttpHost) (name : String) :
    httpLookupHostOnEndpoint hosts name =
      (if name = "" then hosts.head? else hosts.find? (hostMatchesClaim name)) := by
  unfold httpLookupHostOnEndpoint
  split
  · rfl
  · induction hosts with
    | nil => rfl
    | cons h rest ih =>
      obtain ⟨⟨dl⟩⟩ := h
      by_cases hsm : smatchHostName (String.mk dl) name = true
      · rw [List.find?_cons_of_pos]
        · simp [lookupHostLoop, hsm]
        · simp [hostMatchesClaim, hsm]
      · have hsm' : smatchHostName (String.mk dl) name = false := by
          simpa using hsm
        rcases dl with _ | ⟨c, tl⟩
        · -- empty host name: no wildcard handling, fall through
          rw [List.find?_cons_of_neg]
          · simpa [lookupHostLoop, hsm'] using ih
          · have : ((String.mk []) == "*") = false := by decide
            simp [hostMatchesClaim, hsm', this]
        · by_cases hc : c = '*'
          · subst hc
            rcases tl with _ | ⟨d, tl2⟩
            · -- host name is exactly "*"
              rw [List.find?_cons_of_pos]
              · simp [lookupHostLoop, hsm']
              · have : ((String.mk ['*']) == "*") = true := by decide
                simp [hostMatchesClaim, this]
            · -- host name is "*suffix" with non-empty suffix
              have hnotstar : ((String.mk ('*' :: d :: tl2)) == "*") = false := by
                rw [beq_eq_false_iff_ne]
                intro he
                have := congrArg String.data he
                simp at this
              by_cases hcont : scontains name (String.mk (d :: tl2)) = true
              · rw [List.find?_cons_of_pos]
                · simp [lookupHostLoop, hsm', hcont]
                · simp [hostMatchesClaim, hsm', hnotstar, hcont]
              · have hcont' : scontains name (String.mk (d :: tl2)) = false := by
                  simpa using hcont
                rw [List.find?_cons_of_neg]
                · simpa [lookupHostLoop, hsm', hcont'] using ih
                · simp [hostMatchesClaim, hsm', hnotstar, hcont']
          · -- host name starts with an ordinary character: fall through
            have hnotstar : ((String.mk (c :: tl)) == "*") = false := by
              rw [beq_eq_false_iff_ne]
              intro he
              have := congrArg String.data he
              simp at this
              exact hc this.1
            rw [List.find?_cons_of_neg]
            · simpa [lookupHostLoop, hsm', hc] using ih
            · simp [hostMatchesClaim, hsm', hnotstar, hc]

/-! ### C7 -/

theorem b64alph_ne_pad (n : Nat) : b64alph n ≠ 61 := by
  unfold b64alph
  split_ifs <;> omega

theorem b64alph_round (s : Nat) (h : s < 64) : b64dealph (b64alph s) = s := by
  unfold b64alph b64dealph
  split_ifs <;> omega

/-- `decode64` inverts `encode64` on every byte string. -/
theorem decode64_encode64 (bs : List Nat) (h : ∀ b ∈ bs, b < 256) :
    decode64 (encode64 bs) = bs := by
  induction bs using encode64.induct with
  | case1 => rfl
  | case2 a =>
    have ha : a < 256 := h a (by simp)
    show decode64 [b64alph (a / 4), b64alph (a % 4 * 16), 61, 61] = [a]
    unfold decode64
    rw [if_pos rfl]
    rw [b64alph_round (a / 4) (by omega), b64alph_round (a % 4 * 16) (by omega)]
    congr 1
    omega
  | case3 a b =>
    have ha : a < 256 := h a (by simp)
    have hb : b < 256 := h b (by simp)
    show decode64 [b64alph (a / 4), b64alph (a % 4 * 16 + b / 16),
        b64alph (b % 16 * 4), 61] = [a, b]
    unfold decode64
    rw [if_neg (b64alph_ne_pad _), if_pos rfl]
    rw [b64alph_round (a / 4) (by omega),
      b64alph_round (a % 4 * 16 + b / 16) (by omega),
      b64alph_round (b % 16 * 4) (by omega)]
    congr 1
    · omega
    · congr 1
      omega
  | case4 a b c rest ih =>
    have ha : a < 256 := h a (by simp)
    have hb : b < 256 := h b (by simp)
    have hc : c < 256 := h c (by simp)
    have hrest : ∀ x ∈ rest, x < 256 := fun x hx => h x (by simp [hx])
    show decode64 (b64alph (a / 4) :: b64alph (a % 4 * 16 + b / 16) ::
        b64alph (b % 16 * 4 + c / 64) :: b64alph (c % 64) :: encode64 rest)
      = a :: b :: c :: rest
    unfold decode64
    rw [if_neg (b64alph_ne_pad _), if_neg (b64alph_ne_pad _)]
    rw [b64alph_round (a / 4) (by omega),
      b64alph_round (a % 4 * 16 + b / 16) (by omega),
      b64alph_round (b % 16 * 4 + c / 64) (by omega),
      b64alph_round (c % 64) (by omega)]
    rw [ih hrest]
    congr 1
    · omega
    congr 1
    · omega
    congr 1
    omega

/-- Splitting at the first colon undoes `u ++ ":" ++ p` when `u` is
colon-free. -/
theorem httpBasicSplit_append (u p : List Nat) (hu : 58 ∉ u) :
    httpBasicSplit (u ++ 58 :: p) = (u, p) := by
  induction u with
  | nil => simp [httpBasicSplit]
  | cons b rest ih =>
    have hb : b ≠ 58 := by
      intro he
      exact hu (by simp [he])
    have hrest : 58 ∉ rest := fun hx => hu (by simp [hx])
    simp only [List.cons_append, httpBasicSplit, if_neg hb, List.append_eq, ih hrest]

/-- Claim C7 (confirmed): for every username without a colon and every
password (as byte strings), decoding the Basic `Authorization`
credentials produced by `httpBasicSetHeaders` — base64 of `u ++ ":" ++
p`, split at the first `:` by `httpBasicParse` — yields exactly
`(u, p)`. -/
theorem c7_basic_roundtrip (u p : List Nat)
    (hu256 : ∀ b ∈ u, b < 256) (hp256 : ∀ b ∈ p, b < 256) (hu : 58 ∉ u) :
    httpBasicParseCreds (httpBasicSetHeadersCreds u p) = (u, p) := by
  unfold httpBasicParseCreds httpBasicSetHeadersCreds
  rw [decode64_encode64]
  · exact httpBasicSplit_append u p hu
  · intro b hb
    rcases List.mem_append.1 hb with h1 | h2
    · exact hu256 b h1
    · rcases h2 with _ | h3
      · omega
      · exact hp256 b (by assumption)

/-- Witness for `c7_basic_roundtrip` with `u = "joe"` and `p = "p:w"`
(the password may itself contain a colon). -/
theorem c7_basic_roundtrip_witness :
    (58 : Nat) ∉ [106, 111, 101] ∧
    httpBasicParseCreds (httpBasicSetHeadersCreds [106, 111, 101] [112, 58, 119]) =
      ([106, 111, 101], [112, 58, 119]) :=
  ⟨by decide,
   c7_basic_roundtrip [106, 111, 101] [112, 58, 119] (by decide) (by decide) (by decide)⟩

/-! ### C10 -/

theorem routeInList_setHost (rs : List HttpRoute) (r : HttpRoute) (rid h : Nat) :
    routeInList (httpSetRouteHost rs rid h) r = routeInList rs r := by
  unfold routeInList httpSetRouteHost
  rw [List.any_map]
  congr 1
  funext x
  by_cases hx : x.rid == rid <;> simp [hx, Function.comp]

theorem setHost_idem (rs : List HttpRoute) (rid h : Nat) :
    httpSetRouteHost (httpSetRouteHost rs rid h) rid h = httpSetRouteHost rs rid h := by
  unfold httpSetRouteHost
  rw [List.map_map]
  congr 1
  funext x
  by_cases hx : x.rid == rid <;> simp [hx, Function.comp]

/-- Claim C10 (confirmed): calling `httpAddRoute` with a route that is
already a member of the host's route list returns 0 and leaves the list
unchanged — same length, same order of routes (identity, pattern,
segment), and every `nextGroup` unchanged — while setting the `host`
field of the route (the member with the route's identity); calling
`httpAddRoute` twice with the same route and host always equals calling
it once. -/
theorem c10_addRoute_idempotent (rs : List HttpRoute) (r : HttpRoute) (h : Nat)
    (hmem : routeInList rs r = true) :
    (httpAddRoute rs r h).2 = 0 ∧
    (httpAddRoute rs r h).1.length = rs.length ∧
    (∀ i : Nat, ((httpAddRoute rs r h).1[i]?).map
        (fun x => (x.rid, x.pattern, x.startSegment, x.nextGroup)) =
      (rs[i]?).map (fun x => (x.rid, x.pattern, x.startSegment, x.nextGroup))) ∧
    (∀ i : Nat, ∀ x, rs[i]? = some x → x.rid = r.rid →
      (httpAddRoute rs r h).1[i]? = some { x with host := h }) ∧
    httpAddRoute ((httpAddRoute rs r h).1) r h = httpAddRoute rs r h := by
  have hlist : httpAddRouteList rs r = rs := by
    unfold httpAddRouteList
    rw [if_pos hmem]
  refine ⟨rfl, ?_, ?_, ?_, ?_⟩
  · simp [httpAddRoute, hlist, httpSetRouteHost]
  · intro i
    simp only [httpAddRoute, hlist, httpSetRouteHost, List.getElem?_map]
    cases rs[i]? with
    | none => rfl
    | some x =>
      by_cases hx : x.rid = r.rid <;> simp [hx]
  · intro i x hi hx
    simp only [httpAddRoute, hlist, httpSetRouteHost, List.getElem?_map, hi]
    simp [hx]
  · simp only [httpAddRoute, hlist]
    have hmem2 : routeInList (httpSetRouteHost rs r.rid h) r = true := by
      rw [routeInList_setHost]
      exact hmem
    have hlist2 : httpAddRouteList (httpSetRouteHost rs r.rid h) r
        = httpSetRouteHost rs r.rid h := by
      unfold httpAddRouteList
      rw [if_pos hmem2]
    rw [hlist2, setHost_idem]

/-- Witness for `c10_addRoute_idempotent` on a one-route list. -/
theorem c10_addRoute_idempotent_witness :
    routeInList [{ rid := 1, pattern := "/a", startSegment := "a", nextGroup := 1, host := 0 }]
      { rid := 1, pattern := "/a", startSegment := "a", nextGroup := 1, host := 0 } = true ∧
    (httpAddRoute [{ rid := 1, pattern := "/a", startSegment := "a", nextGroup := 1, host := 0 }]
      { rid := 1, pattern := "/a", startSegment := "a", nextGroup := 1, host := 0 } 7).2 = 0 :=
  ⟨by decide,
   (c10_addRoute_idempotent
      [{ rid := 1, pattern := "/a", startSegment := "a", nextGroup := 1, host := 0 }]
      { rid := 1, pattern := "/a", startSegment := "a", nextGroup := 1, host := 0 } 7
      (by decide)).1⟩

/-! ### C6 -/

theorem getElem?_some_lt {α : Type} {l : List α} {i : Nat} {x : α}
    (h : l[i]? = some x) : i < l.length := by
  by_contra hge
  rw [List.getElem?_eq_none (by omega)] at h
  exact Option.noConfusion h

theorem segAt_eq (rs : List HttpRoute) (i : Nat) (x : HttpRoute)
    (h : rs[i]? = some x) : segAt rs i = x.startSegment := by
  unfold segAt
  rw [h]

theorem segAt_set_ng (rs : List HttpRoute) (m : Nat) (x : HttpRoute) (t : Nat)
    (hm : rs[m]? = some x) (k : Nat) :
    segAt (rs.set m { x with nextGroup := t }) k = segAt rs k := by
  unfold segAt
  by_cases hk : m = k
  · subst hk
    rw [List.getElem?_set_self (getElem?_some_lt hm), hm]
  · rw [List.getElem?_set_ne hk]

theorem groupFromB_set_ng (rs : List HttpRoute) (m : Nat) (x : HttpRoute) (t : Nat)
    (hm : rs[m]? = some x) (j q : Nat) (seg : String) :
    groupFromB (rs.set m { x with nextGroup := t }) j q seg = groupFromB rs j q seg := by
  unfold groupFromB
  simp only [segAt_set_ng rs m x t hm]

theorem groupFromB_singleton (rs : List HttpRoute) (j : Nat) (seg : String) :
    groupFromB rs j (j + 1) seg = (segAt rs j == seg) := by
  unfold groupFromB
  have h1 : j + 1 - j = 1 := by omega
  have h2 : List.range 1 = [0] := rfl
  rw [h1, h2, List.all_cons, List.all_nil, Bool.and_true, Nat.add_zero]

theorem groupFromB_succ (rs : List HttpRoute) (j i : Nat) (seg : String)
    (hj : j ≤ i + 1) :
    groupFromB rs j (i + 2) seg =
      (groupFromB rs j (i + 1) seg && (segAt rs (i + 1) == seg)) := by
  unfold groupFromB
  have h1 : i + 2 - j = (i + 1 - j) + 1 := by omega
  rw [h1, List.range_succ, List.all_append]
  have h2 : j + (i + 1 - j) = i + 1 := by omega
  simp [h2]

theorem groupWalk_length (seg : String) (tgt : Nat) :
    ∀ (i : Nat) (rs : List HttpRoute), (groupWalk seg tgt i rs).length = rs.length := by
  intro i
  induction i with
  | zero =>
    intro rs
    unfold groupWalk
    split
    · split
      · simp
      · rfl
    · rfl
  | succ i ih =>
    intro rs
    unfold groupWalk
    split
    · split
      · rw [ih]
        simp
      · rfl
    · rfl

/-- Pointwise behaviour of the backward walk: index `j` gets
`nextGroup := tgt` exactly when `j` lies at or below the walk's starting
index `i` and every segment from `j` up to `i` equals `seg`. -/
theorem groupWalk_getElem (seg : String) (tgt : Nat) :
    ∀ (i : Nat) (rs : List HttpRoute), i < rs.length → ∀ (j : Nat),
      (groupWalk seg tgt i rs)[j]? =
        if j ≤ i ∧ groupFromB rs j (i + 1) seg = true then
          (rs[j]?).map (fun x => { x with nextGroup := tgt })
        else rs[j]? := by
  intro i
  induction i with
  | zero =>
    intro rs hlen j
    obtain ⟨item, hitem⟩ : ∃ item, rs[0]? = some item := by
      rw [List.getElem?_eq_getElem hlen]
      exact ⟨_, rfl⟩
    unfold groupWalk
    simp only [hitem]
    by_cases hseg : (item.startSegment == seg) = true
    · rw [if_pos hseg]
      by_cases hj : j = 0
      · subst hj
        rw [List.getElem?_set_self hlen, hitem]
        rw [if_pos ⟨Nat.le_refl 0, by rw [groupFromB_singleton, segAt_eq rs 0 item hitem, hseg]⟩]
        rfl
      · rw [List.getElem?_set_ne (fun he => hj he.symm)]
        rw [if_neg]
        rintro ⟨hj0, _⟩
        exact hj (Nat.le_zero.1 hj0)
    · rw [if_neg hseg]
      rw [if_neg]
      rintro ⟨hj0, hgf⟩
      have hj' : j = 0 := Nat.le_zero.1 hj0
      subst hj'
      rw [groupFromB_singleton, segAt_eq rs 0 item hitem] at hgf
      exact hseg hgf
  | succ i ih =>
    intro rs hlen j
    obtain ⟨item, hitem⟩ : ∃ item, rs[i + 1]? = some item := by
      rw [List.getElem?_eq_getElem hlen]
      exact ⟨_, rfl⟩
    unfold groupWalk
    simp only [hitem]
    by_cases hseg : (item.startSegment == seg) = true
    · rw [if_pos hseg]
      have hlen2 : i < (rs.set (i + 1) { item with nextGroup := tgt }).length := by
        simp
        omega
      rw [ih _ hlen2 j]
      have hgf2 : ∀ q, groupFromB (rs.set (i + 1) { item with nextGroup := tgt }) j q seg
          = groupFromB rs j q seg :=
        fun q => groupFromB_set_ng rs (i + 1) item tgt hitem j q seg
      rw [hgf2]
      have hss : (segAt rs (i + 1) == seg) = true := by
        rw [segAt_eq rs (i + 1) item hitem]
        exact hseg
      by_cases hj : j ≤ i
      · have hget : (rs.set (i + 1) { item with nextGroup := tgt })[j]? = rs[j]? :=
          List.getElem?_set_ne (by omega)
        rw [hget]
        have heq : groupFromB rs j (i + 2) seg = groupFromB rs j (i + 1) seg := by
          rw [groupFromB_succ rs j i seg (by omega), hss, Bool.and_true]
        by_cases hX : groupFromB rs j (i + 1) seg = true
        · rw [if_pos ⟨hj, hX⟩, if_pos ⟨by omega, by rw [heq]; exact hX⟩]
        · rw [if_neg (fun hc => hX hc.2), if_neg (fun hc => hX (by rw [← heq]; exact hc.2))]
      · by_cases hj1 : j = i + 1
        · subst hj1
          rw [if_neg (fun hc => hj hc.1)]
          rw [List.getElem?_set_self hlen, hitem]
          rw [if_pos ⟨Nat.le_refl _, by
            rw [groupFromB_singleton, segAt_eq rs (i + 1) item hitem]
            exact hseg⟩]
          rfl
        · rw [if_neg (fun hc => hj hc.1)]
          rw [List.getElem?_set_ne (fun he => hj1 he.symm)]
          rw [if_neg (fun hc => hj1 (by omega))]
    · rw [if_neg hseg]
      rw [if_neg]
      rintro ⟨hj0, hgf⟩
      rw [groupFromB_succ rs j i seg hj0] at hgf
      rw [segAt_eq rs (i + 1) item hitem] at hgf
      simp only [Bool.and_eq_true] at hgf
      exact hseg hgf.2

/-- Pointwise behaviour of the `nextGroup` update block of
`httpAddRoute`: index `j` of the inserted list gets `nextGroup := pos`
exactly when `j` lies before the new route, the preceding route's
segment differs from the new route's, and all segments from `j` up to
`pos - 1` equal the preceding route's segment. -/
theorem updateGroups_getElem (rs1 : List HttpRoute) (r : HttpRoute) (pos : Nat)
    (hpos : 0 < pos) (hlen : pos - 1 < rs1.length) (j : Nat) :
    (updateGroups rs1 r pos)[j]? =
      if j < pos ∧ segAt rs1 (pos - 1) ≠ r.startSegment ∧
          groupFromB rs1 j pos (segAt rs1 (pos - 1)) = true then
        (rs1[j]?).map (fun x => { x with nextGroup := pos })
      else rs1[j]? := by
  obtain ⟨prev, hprev⟩ : ∃ prev, rs1[pos - 1]? = some prev := by
    rw [List.getElem?_eq_getElem hlen]
    exact ⟨_, rfl⟩
  have hsegprev : segAt rs1 (pos - 1) = prev.startSegment := segAt_eq _ _ _ hprev
  unfold updateGroups
  rw [if_pos hpos]
  simp only [hprev]
  by_cases hne : prev.startSegment ≠ r.startSegment
  · rw [if_pos hne]
    have hset_self : (rs1.set (pos - 1) { prev with nextGroup := pos })[pos - 1]?
        = some { prev with nextGroup := pos } := List.getElem?_set_self hlen
    have hset_ne : ∀ j' : Nat, j' ≠ pos - 1 →
        (rs1.set (pos - 1) { prev with nextGroup := pos })[j']? = rs1[j']? :=
      fun j' hj' => List.getElem?_set_ne (fun he => hj' he.symm)
    have hsing : groupFromB rs1 (pos - 1) pos prev.startSegment = true := by
      have h0 := groupFromB_singleton rs1 (pos - 1) prev.startSegment
      rw [show (pos - 1) + 1 = pos from by omega] at h0
      rw [h0, hsegprev]
      simp
    by_cases h2 : 2 ≤ pos
    · rw [if_pos h2]
      have hwlen : pos - 2 < (rs1.set (pos - 1) { prev with nextGroup := pos }).length := by
        simp
        omega
      rw [groupWalk_getElem prev.startSegment pos (pos - 2) _ hwlen j]
      have hgf2 : ∀ q : Nat, groupFromB (rs1.set (pos - 1) { prev with nextGroup := pos })
          j q prev.startSegment = groupFromB rs1 j q prev.startSegment :=
        fun q => groupFromB_set_ng rs1 (pos - 1) prev pos hprev j q _
      rw [show (pos - 2) + 1 = pos - 1 from by omega, hgf2, hsegprev]
      have hgrow : groupFromB rs1 j pos prev.startSegment
          = groupFromB rs1 j (pos - 1) prev.startSegment := by
        by_cases hj' : j ≤ pos - 1
        · have hstep := groupFromB_succ rs1 j (pos - 2) prev.startSegment (by omega)
          rw [show (pos - 2) + 2 = pos from by omega,
              show (pos - 2) + 1 = pos - 1 from by omega] at hstep
          rw [hstep, hsegprev]
          simp
        · unfold groupFromB
          rw [show pos - j = 0 from by omega, show pos - 1 - j = 0 from by omega]
      by_cases hj : j ≤ pos - 2
      · rw [hset_ne j (by omega)]
        by_cases hX : groupFromB rs1 j (pos - 1) prev.startSegment = true
        · rw [if_pos ⟨hj, hX⟩, if_pos ⟨by omega, hne, by rw [hgrow]; exact hX⟩]
        · rw [if_neg (fun hc => hX hc.2),
            if_neg (fun hc => hX (by rw [← hgrow]; exact hc.2.2))]
      · rw [if_neg (fun hc => hj hc.1)]
        by_cases hj1 : j = pos - 1
        · subst hj1
          rw [hset_self, if_pos ⟨by omega, hne, hsing⟩, hprev]
          rfl
        · rw [hset_ne j hj1, if_neg (fun hc => absurd hc.1 (by omega))]
    · rw [if_neg h2]
      have hp1 : pos = 1 := by omega
      subst hp1
      by_cases hj : j = 0
      · subst hj
        rw [show (0 : Nat) = 1 - 1 from rfl, hset_self, hprev, hsegprev]
        rw [if_pos ⟨by omega, hne, hsing⟩]
        rfl
      · rw [hset_ne j (by omega), if_neg (fun hc => hj (Nat.lt_one_iff.1 hc.1))]
  · rw [if_neg hne]
    rw [if_neg (fun hc => hne (hsegprev ▸ hc.2.1))]

theorem insertIdx_le (rs : List HttpRoute) (r : HttpRoute) :
    insertIdx rs r ≤ rs.length := by
  unfold insertIdx
  split
  · split <;> omega
  · omega

theorem insList_length (rs : List HttpRoute) (r : HttpRoute) (pos : Nat)
    (h : pos ≤ rs.length) :
    (rs.take pos ++ r :: rs.drop pos).length = rs.length + 1 := by
  simp
  omega

theorem insList_get_lt (rs : List HttpRoute) (r : HttpRoute) (pos : Nat)
    (h : pos ≤ rs.length) (j : Nat) (hj : j < pos) :
    (rs.take pos ++ r :: rs.drop pos)[j]? = rs[j]? := by
  rw [List.getElem?_append_left]
  · exact List.getElem?_take_of_lt hj
  · simp
    omega

theorem insList_get_pos (rs : List HttpRoute) (r : HttpRoute) (pos : Nat)
    (h : pos ≤ rs.length) :
    (rs.take pos ++ r :: rs.drop pos)[pos]? = some r := by
  rw [List.getElem?_append_right]
  · have h1 : (rs.take pos).length = pos := by
      simp
      omega
    rw [h1, Nat.sub_self]
    exact List.getElem?_cons_zero
  · simp

theorem insList_get_gt (rs : List HttpRoute) (r : HttpRoute) (pos : Nat)
    (h : pos ≤ rs.length) (j : Nat) (hj : pos < j) :
    (rs.take pos ++ r :: rs.drop pos)[j]? = rs[j - 1]? := by
  have h1 : (rs.take pos).length = pos := by
    simp
    omega
  rw [List.getElem?_append_right (by rw [h1]; omega), h1]
  obtain ⟨m, hm⟩ : ∃ m, j - pos = m + 1 := ⟨j - pos - 1, by omega⟩
  rw [hm, List.getElem?_cons_succ, List.getElem?_drop]
  congr 1
  omega

theorem segAt_insList_lt (rs : List HttpRoute) (r : HttpRoute) (pos : Nat)
    (h : pos ≤ rs.length) (k : Nat) (hk : k < pos) :
    segAt (rs.take pos ++ r :: rs.drop pos) k = segAt rs k := by
  unfold segAt
  rw [insList_get_lt rs r pos h k hk]

theorem all_range_congr (n : Nat) (f g : Nat → Bool)
    (h : ∀ k, k < n → f k = g k) :
    (List.range n).all f = (List.range n).all g := by
  induction n with
  | zero => rfl
  | succ n ih =>
    rw [List.range_succ, List.all_append, List.all_append,
      ih (fun k hk => h k (by omega))]
    have := h n (by omega)
    simp [this]

theorem groupFromB_insList (rs : List HttpRoute) (r : HttpRoute) (pos : Nat)
    (h : pos ≤ rs.length) (j q : Nat) (hq : q ≤ pos) (seg : String) :
    groupFromB (rs.take pos ++ r :: rs.drop pos) j q seg = groupFromB rs j q seg := by
  unfold groupFromB
  apply all_range_congr
  intro k hk
  rw [segAt_insList_lt rs r pos h (j + k) (by omega)]

theorem updateGroups_length (rs1 : List HttpRoute) (r : HttpRoute) (pos : Nat) :
    (updateGroups rs1 r pos).length = rs1.length := by
  unfold updateGroups
  split
  · split
    · split
      · split
        · rw [groupWalk_length]
          simp
        · simp
      · rfl
    · rfl
  · rfl

/-- Claim C6 counterexample: a one-route list whose single route has
`nextGroup = 1` satisfies the claimed invariant (every `nextGroup`
points at the first index with a different `startSegment` or past the
end).  Inserting a second route with the *same* `startSegment` appends
it but updates no `nextGroup` (the predecessor's segment matches, so the
update block is skipped), leaving the first route's `nextGroup` pointing
into the middle of its own group and the new route's stale `nextGroup`
at 0 — the invariant does not survive the insertion. -/
theorem c6_counterexample :
    claimInvariantC6
      [{ rid := 1, pattern := "/a", startSegment := "a", nextGroup := 1, host := 0 }] = true ∧
    claimInvariantC6 (httpAddRouteList
      [{ rid := 1, pattern := "/a", startSegment := "a", nextGroup := 1, host := 0 }]
      { rid := 2, pattern := "/b", startSegment := "a", nextGroup := 0, host := 0 }) = false := by
  refine ⟨by decide, by decide⟩

/-- Claim C6 (amended): inserting a route `R` not yet in the list places
it before a terminal empty-pattern route when `R`'s pattern is non-empty
(index `len-1`), else appends it; when the route `P` preceding `R` has a
different `startSegment`, `P.nextGroup` and the `nextGroup` of every
contiguous predecessor sharing `P`'s segment are set to `R`'s index, and
no other `nextGroup` changes (in particular `R`'s own group keeps its
stale values, so `nextGroup` does not in general point at the first
index with a different segment); the terminal empty-pattern route, if
any, is still the last element. -/
theorem c6_amended (rs : List HttpRoute) (r : HttpRoute)
    (hfresh : routeInList rs r = false) :
    (httpAddRouteList rs r).length = rs.length + 1 ∧
    (httpAddRouteList rs r)[insertIdx rs r]? = some r ∧
    (∀ j : Nat, j < insertIdx rs r →
      (httpAddRouteList rs r)[j]? =
        if segAt rs (insertIdx rs r - 1) ≠ r.startSegment ∧
            groupFromB rs j (insertIdx rs r) (segAt rs (insertIdx rs r - 1)) = true then
          (rs[j]?).map (fun x => { x with nextGroup := insertIdx rs r })
        else rs[j]?) ∧
    (∀ j : Nat, insertIdx rs r < j → (httpAddRouteList rs r)[j]? = rs[j - 1]?) ∧
    (∀ lastR : HttpRoute, rs.getLast? = some lastR → lastR.pattern = "" →
      ∃ lastO : HttpRoute, (httpAddRouteList rs r).getLast? = some lastO ∧
        lastO.pattern = "") := by
  have hple : insertIdx rs r ≤ rs.length := insertIdx_le rs r
  have hlist : httpAddRouteList rs r =
      updateGroups (rs.take (insertIdx rs r) ++ r :: rs.drop (insertIdx rs r)) r
        (insertIdx rs r) := by
    unfold httpAddRouteList
    rw [if_neg (by rw [hfresh]; exact Bool.false_ne_true)]
  have hlen1 : (rs.take (insertIdx rs r) ++ r :: rs.drop (insertIdx rs r)).length
      = rs.length + 1 := insList_length rs r _ hple
  have hlenout : (httpAddRouteList rs r).length = rs.length + 1 := by
    rw [hlist, updateGroups_length, hlen1]
  refine ⟨hlenout, ?_, ?_, ?_, ?_⟩
  · -- the inserted route sits at `pos` with its fields untouched
    rw [hlist]
    by_cases hpos : 0 < insertIdx rs r
    · rw [updateGroups_getElem _ r _ hpos (by rw [hlen1]; omega)]
      rw [if_neg (fun hc => absurd hc.1 (by omega))]
      exact insList_get_pos rs r _ hple
    · have h0 : insertIdx rs r = 0 := by omega
      rw [h0]
      unfold updateGroups
      rw [if_neg (by omega)]
      have := insList_get_pos rs r _ hple
      rw [h0] at this
      exact this
  · -- predecessors: the contiguous-group update and nothing else
    intro j hj
    have hpos : 0 < insertIdx rs r := by omega
    rw [hlist, updateGroups_getElem _ r _ hpos (by rw [hlen1]; omega)]
    have hseg_eq : segAt (rs.take (insertIdx rs r) ++ r :: rs.drop (insertIdx rs r))
        (insertIdx rs r - 1) = segAt rs (insertIdx rs r - 1) :=
      segAt_insList_lt rs r _ hple _ (by omega)
    have hgf_eq : groupFromB (rs.take (insertIdx rs r) ++ r :: rs.drop (insertIdx rs r))
        j (insertIdx rs r) (segAt rs (insertIdx rs r - 1))
        = groupFromB rs j (insertIdx rs r) (segAt rs (insertIdx rs r - 1)) :=
      groupFromB_insList rs r _ hple j _ (Nat.le_refl _) _
    have hget : (rs.take (insertIdx rs r) ++ r :: rs.drop (insertIdx rs r))[j]? = rs[j]? :=
      insList_get_lt rs r _ hple j hj
    rw [hseg_eq, hget]
    by_cases hcond : segAt rs (insertIdx rs r - 1) ≠ r.startSegment ∧
        groupFromB rs j (insertIdx rs r) (segAt rs (insertIdx rs r - 1)) = true
    · rw [if_pos hcond, if_pos ⟨hj, hcond.1, by rw [hgf_eq]; exact hcond.2⟩]
    · rw [if_neg hcond, if_neg (fun hc => hcond ⟨hc.2.1, by rw [← hgf_eq]; exact hc.2.2⟩)]
  · -- successors of the insertion point are shifted by one, unchanged
    intro j hj
    rw [hlist]
    by_cases hpos : 0 < insertIdx rs r
    · rw [updateGroups_getElem _ r _ hpos (by rw [hlen1]; omega)]
      rw [if_neg (fun hc => absurd hc.1 (by omega))]
      exact insList_get_gt rs r _ hple j hj
    · have h0 : insertIdx rs r = 0 := by omega
      rw [h0]
      unfold updateGroups
      rw [if_neg (by omega)]
      have := insList_get_gt rs r _ hple j hj
      rw [h0] at this
      exact this
  · -- the terminal empty-pattern route is still last
    intro lastR hlast hpat
    have hne : rs ≠ [] := by
      intro he
      subst he
      simp at hlast
    have hlpos : 0 < rs.length := List.length_pos.2 hne
    have hposdef : insertIdx rs r =
        if r.pattern ≠ "" ∧ lastR.pattern = "" then rs.length - 1 else rs.length := by
      unfold insertIdx
      rw [hlast]
    have hlast_get : rs[rs.length - 1]? = some lastR := by
      rw [← List.getLast?_eq_getElem?]
      exact hlast
    have hget_last : (httpAddRouteList rs r).getLast?
        = (httpAddRouteList rs r)[rs.length]? := by
      rw [List.getLast?_eq_getElem?, hlenout]
      simp
    by_cases hrp : r.pattern ≠ ""
    · -- inserted before the default route; the old last element stays last
      have hposval : insertIdx rs r = rs.length - 1 := by
        rw [hposdef, if_pos ⟨hrp, hpat⟩]
      refine ⟨lastR, ?_, hpat⟩
      rw [hget_last]
      have hjgt : insertIdx rs r < rs.length := by omega
      have hd : (httpAddRouteList rs r)[rs.length]? = rs[rs.length - 1]? := by
        rw [hlist]
        by_cases hpos : 0 < insertIdx rs r
        · rw [updateGroups_getElem _ r _ hpos (by rw [hlen1]; omega)]
          rw [if_neg (fun hc => absurd hc.1 (by omega))]
          exact insList_get_gt rs r _ hple rs.length hjgt
        · have h0 : insertIdx rs r = 0 := by omega
          rw [h0]
          unfold updateGroups
          rw [if_neg (by omega)]
          have := insList_get_gt rs r _ hple rs.length hjgt
          rw [h0] at this
          exact this
      rw [hd]
      exact hlast_get
    · -- the new route itself has an empty pattern and is appended last
      have hrp' : r.pattern = "" := by
        by_contra hx
        exact hrp hx
      have hposval : insertIdx rs r = rs.length := by
        rw [hposdef, if_neg (fun hc => hrp hc.1)]
      refine ⟨r, ?_, hrp'⟩
      rw [hget_last, ← hposval]
      rw [hlist]
      by_cases hpos : 0 < insertIdx rs r
      · rw [updateGroups_getElem _ r _ hpos (by rw [hlen1]; omega)]
        rw [if_neg (fun hc => absurd hc.1 (by omega))]
        exact insList_get_pos rs r _ hple
      · have h0 : insertIdx rs r = 0 := by omega
        rw [h0]
        unfold updateGroups
        rw [if_neg (by omega)]
        have := insList_get_pos rs r _ hple
        rw [h0] at this
        exact this

/-- Witness for `c6_amended`: inserting a fresh route into a one-route
list with a different segment puts it at index 1 with its record
unchanged. -/
theorem c6_amended_witness :
    routeInList [{ rid := 1, pattern := "/a", startSegment := "a", nextGroup := 1, host := 0 }]
      { rid := 2, pattern := "/b", startSegment := "b", nextGroup := 0, host := 0 } = false ∧
    (httpAddRouteList
        [{ rid := 1, pattern := "/a", startSegment := "a", nextGroup := 1, host := 0 }]
        { rid := 2, pattern := "/b", startSegment := "b", nextGroup := 0, host := 0 })[
      insertIdx [{ rid := 1, pattern := "/a", startSegment := "a", nextGroup := 1, host := 0 }]
        { rid := 2, pattern := "/b", startSegment := "b", nextGroup := 0, host := 0 }]? =
      some { rid := 2, pattern := "/b", startSegment := "b", nextGroup := 0, host := 0 } :=
  ⟨by decide,
   (c6_amended [{ rid := 1, pattern := "/a", startSegment := "a", nextGroup := 1, host := 0 }]
      { rid := 2, pattern := "/b", startSegment := "b", nextGroup := 0, host := 0 }
      (by decide)).2.1⟩
